import Mathlib

/-!
# Verification of the vibe-coding-template user CRUD core

Shallow embedding of the Clean-Architecture user workflow of the repository:

* `src/domain/entities/user.entity.ts` — the Zod schemas for user input,
* `src/adapters/repositories/in-memory-user.repository.ts` — the map-backed
  `InMemoryUserRepository` (`findById`, `findByEmail`, `create`, `update`,
  `delete`, `list`),
* `src/application/use-cases/create-user.use-case.ts` — `CreateUserUseCase`,
* `src/application/use-cases/list-users.use-case.ts` — `ListUsersUseCase`,
* `src/adapters/api/base/base.controller.ts` — `BaseController.execute`.

JavaScript strings are modelled as Lean `String`, JS `number` map keys and ids
as `Int` (they are small integers here), and `Date` timestamps as a `Nat`
clock value passed explicitly to each mutating operation.  JS `Map` is an
insertion-ordered association list, which matches the iteration order of
`Map.prototype.values()`.  `async` methods are modelled as pure functions
returning their value together with the updated repository state; a `throw`
becomes an `Except.error`.
-/

/-! ## JavaScript string primitives -/

/-- Model of `String.prototype.toLowerCase()`, character by character (ASCII model:
Lean's `Char.toLower` lowers exactly the characters A–Z). -/
def jsToLower (s : String) : String := ⟨s.data.map Char.toLower⟩

/-- Trim whitespace from both ends of a character list. -/
def trimChars (cs : List Char) : List Char :=
  ((cs.dropWhile Char.isWhitespace).reverse.dropWhile Char.isWhitespace).reverse

/-- Model of `String.prototype.trim()` (ASCII whitespace model). -/
def jsTrim (s : String) : String := ⟨trimChars s.data⟩

/-- Numeric value of a list of decimal digit characters, most significant
first. -/
def digitsVal (ds : List Char) : Nat :=
  ds.foldl (fun acc c => acc * 10 + (c.toNat - 48)) 0

/-- Model of `Number.parseInt(s, 10)`: skip leading whitespace, read an optional sign,
then the longest prefix of decimal digits; `none` models `NaN` (no digits). -/
def parseIntJS (s : String) : Option Int :=
  match s.data.dropWhile Char.isWhitespace with
  | [] => none
  | c :: rest =>
    let signed : Int × List Char :=
      if c = Char.ofNat 45 then (-1, rest)
      else if c = Char.ofNat 43 then (1, rest)
      else (1, c :: rest)
    let ds := signed.2.takeWhile Char.isDigit
    if ds.isEmpty then none else some (signed.1 * (digitsVal ds : Int))

/-! ## The Zod `z.string().email()` format check

Model of the email regular expression used by zod:
`(?!\.)(?!.*\.\.)([A-Za-z0-9_'+\-\.]*)[A-Za-z0-9_+-]@([A-Za-z0-9][A-Za-z0-9\-]*\.)+[A-Za-z]{2,}`
anchored at both ends: a local part over the allowed character class that does
not start with a dot, contains no two consecutive dots and ends in an
alphanumeric, underscore, plus or minus character, followed by `@` and one or
more alphanumeric-and-hyphen labels each starting alphanumeric, ending with a
top-level label of at least two letters. -/

/-- Characters allowed anywhere in the local part of an email address. -/
def isLocalChar (c : Char) : Bool :=
  c.isAlphanum || c = Char.ofNat 95 || c = Char.ofNat 39 || c = Char.ofNat 43 ||
    c = Char.ofNat 45 || c = Char.ofNat 46

/-- Characters allowed as the final character of the local part. -/
def isLocalEndChar (c : Char) : Bool :=
  c.isAlphanum || c = Char.ofNat 95 || c = Char.ofNat 43 || c = Char.ofNat 45

/-- Characters allowed after the first character of a domain label. -/
def isLabelChar (c : Char) : Bool := c.isAlphanum || c = Char.ofNat 45

/-- Does the character list contain two consecutive dots? -/
def hasDoubleDot : List Char → Bool
  | [] => false
  | [_] => false
  | c1 :: c2 :: rest =>
      (c1 = Char.ofNat 46 && c2 = Char.ofNat 46) || hasDoubleDot (c2 :: rest)

/-- Split a character list at the first occurrence of `sep`, if any. -/
def splitFirst (sep : Char) : List Char → Option (List Char × List Char)
  | [] => none
  | c :: rest =>
    if c = sep then some ([], rest)
    else (splitFirst sep rest).map (fun p => (c :: p.1, p.2))

/-- Split a character list on every occurrence of `sep`. -/
def splitOnChar (sep : Char) : List Char → List (List Char)
  | [] => [[]]
  | c :: rest =>
    match splitOnChar sep rest with
    | [] => if c = sep then [[], []] else [[c]]
    | l :: ls => if c = sep then [] :: l :: ls else (c :: l) :: ls

/-- The local part: nonempty, over the local character class, ending in a
local-end character. -/
def localPartOk (cs : List Char) : Bool :=
  match cs.getLast? with
  | none => false
  | some c => cs.all isLocalChar && isLocalEndChar c

/-- A non-final domain label: nonempty, starts alphanumeric, continues with
alphanumeric or hyphen characters. -/
def labelOk : List Char → Bool
  | [] => false
  | c :: rest => c.isAlphanum && rest.all isLabelChar

/-- The final domain label: at least two letters. -/
def tldOk (cs : List Char) : Bool := 2 ≤ cs.length && cs.all Char.isAlpha

/-- The domain part: one or more labels followed by a final label, separated
by dots. -/
def domainOk (cs : List Char) : Bool :=
  match (splitOnChar (Char.ofNat 46) cs).reverse with
  | [] => false
  | tld :: labels => tldOk tld && !labels.isEmpty && labels.all labelOk

/-- The zod email format check. -/
def isZodEmail (s : String) : Bool :=
  match splitFirst (Char.ofNat 64) s.data with
  | none => false
  | some (lp, dp) =>
    match lp with
    | [] => false
    | c :: _ =>
        !(c = Char.ofNat 46) && !hasDoubleDot s.data && localPartOk lp &&
          domainOk dp

/-! ## Domain entities and schemas (`user.entity.ts`) -/

/-- The `User` domain entity.  `createdAt`/`updatedAt` are clock values. -/
structure User where
  id : Int
  email : String
  name : String
  createdAt : Nat
  updatedAt : Nat
deriving Repr, DecidableEq

/-- The payload accepted by `UserRepository.create`. -/
structure CreateUserInput where
  email : String
  name : String
deriving Repr, DecidableEq

/-- The payload accepted by `UserRepository.update`: both fields optional. -/
structure UpdateUserInput where
  email : Option String
  name : Option String
deriving Repr, DecidableEq

/-- Model of `createUserInputSchema.safeParse` on an `{email, name}` object.  The email
field runs the checks `email`, `min(1)`, `max(255)`; the name field runs
`min(1)`, `max(100)` and then the `trim()` transform.  Parsing succeeds
exactly when every check passes, and `trim` — being a transform that runs
after the two length checks — is applied to the name only on success. -/
def createUserInputSchemaParse (email name : String) : Option CreateUserInput :=
  if isZodEmail email ∧ 1 ≤ email.length ∧ email.length ≤ 255 ∧
      1 ≤ name.length ∧ name.length ≤ 100 then
    some ⟨email, jsTrim name⟩
  else
    none

/-! ## Association-list model of the JavaScript `Map` -/

/-- Model of `Map.prototype.get`: the value stored at the first matching key. -/
def mapGet {α β : Type} [DecidableEq α] (m : List (α × β)) (k : α) : Option β :=
  match m with
  | [] => none
  | p :: rest => if p.1 = k then some p.2 else mapGet rest k

/-- Model of `Map.prototype.set`: replace in place if present (keeping insertion
order, as the JS `Map` does), append otherwise. -/
def mapSet {α β : Type} [DecidableEq α] (m : List (α × β)) (k : α) (v : β) :
    List (α × β) :=
  match m with
  | [] => [(k, v)]
  | p :: rest => if p.1 = k then (k, v) :: rest else p :: mapSet rest k v

/-- Model of `Map.prototype.delete` (as a state transformer): remove the entry with
the given key. -/
def mapDelete {α β : Type} [DecidableEq α] (m : List (α × β)) (k : α) :
    List (α × β) :=
  m.filter (fun p => p.1 != k)

/-! ## `InMemoryUserRepository` -/

/-- The private state of an `InMemoryUserRepository` instance: the `users`
map, the `emailIndex` map (email → id) and the `nextId` counter. -/
structure RepoState where
  users : List (Int × User)
  emailIndex : List (String × Int)
  nextId : Int
deriving Repr, DecidableEq

/-- A freshly constructed repository: empty maps, `nextId = 1`. -/
def RepoState.init : RepoState := ⟨[], [], 1⟩

namespace InMemoryUserRepository

/-- Method `findById`: parse the id with `parseInt(·, 10)`; `NaN` and absent keys
give `null`. -/
def findById (s : RepoState) (id : String) : Option User :=
  match parseIntJS id with
  | none => none
  | some numericId => mapGet s.users numericId

/-- Method `findByEmail`: look the lowercased email up in the index.  The source
guards with `if (!id) return null`, which is falsy both for a missing entry
and for the id `0`. -/
def findByEmail (s : RepoState) (email : String) : Option User :=
  match mapGet s.emailIndex (jsToLower email) with
  | none => none
  | some id => if id = 0 then none else mapGet s.users id

/-- Method `create`: assign `nextId`, lowercase the email, stamp both timestamps
with the current clock, store the user and index its email.  No uniqueness
check of any kind is performed here. -/
def create (s : RepoState) (input : CreateUserInput) (now : Nat) :
    User × RepoState :=
  let id := s.nextId
  let user : User :=
    { id := id
      email := jsToLower input.email
      name := input.name
      createdAt := now
      updatedAt := now }
  (user,
    { users := mapSet s.users id user
      emailIndex := mapSet s.emailIndex user.email id
      nextId := s.nextId + 1 })

/-- Method `update`: merge the provided fields over the stored user (spread
semantics), lowercase a provided email, refresh `updatedAt`, and re-index the
email when a truthy provided email differs from the stored one. -/
def update (s : RepoState) (id : String) (input : UpdateUserInput) (now : Nat) :
    Option User × RepoState :=
  match parseIntJS id with
  | none => (none, s)
  | some numericId =>
    match mapGet s.users numericId with
    | none => (none, s)
    | some user =>
      let updatedUser : User :=
        { id := user.id
          email := (input.email.map jsToLower).getD user.email
          name := input.name.getD user.name
          createdAt := user.createdAt
          updatedAt := now }
      let emailIndex2 : List (String × Int) :=
        match input.email with
        | none => s.emailIndex
        | some e =>
          if e ≠ "" ∧ e ≠ user.email then
            mapSet (mapDelete s.emailIndex user.email) updatedUser.email numericId
          else
            s.emailIndex
      (some updatedUser,
        { users := mapSet s.users numericId updatedUser
          emailIndex := emailIndex2
          nextId := s.nextId })

/-- Method `delete`: remove the user and its email-index entry; `false` when the id
is `NaN` or not stored. -/
def deleteUser (s : RepoState) (id : String) : Bool × RepoState :=
  match parseIntJS id with
  | none => (false, s)
  | some numericId =>
    match mapGet s.users numericId with
    | none => (false, s)
    | some user =>
      (true,
        { users := mapDelete s.users numericId
          emailIndex := mapDelete s.emailIndex user.email
          nextId := s.nextId })

/-- The stored users in insertion order (`Array.from(this.users.values())`). -/
def values (s : RepoState) : List User := s.users.map Prod.snd

/-- Model of `Array.prototype.slice(start, stop)` for non-negative indices. -/
def jsSlice {α : Type} (l : List α) (start stop : Nat) : List α :=
  (l.take stop).drop start

/-- Method `list(limit, offset)`: `allUsers.slice(offset, offset + limit)`. -/
def list (s : RepoState) (limit offset : Nat) : List User :=
  jsSlice (values s) offset (offset + limit)

/-- Calling `list()` with its default parameters `limit = 10`, `offset = 0`. -/
def listDefault (s : RepoState) : List User := list s 10 0

end InMemoryUserRepository

/-! ## `CreateUserUseCase` (`create-user.use-case.ts`) -/

/-- The two kinds of error `CreateUserUseCase.execute` can throw: a
`ValidationError` when `safeParse` fails, and a plain `Error` ("User with
this email already exists") when the uniqueness lookup finds a user. -/
inductive CreateUserError where
  | validationError
  | genericError
deriving Repr, DecidableEq

/-- Method `CreateUserUseCase.execute`: validate with the schema, look the
validated email up via `findByEmail`, and on success `create` with the
lowercased email and validated (trimmed) name.  The returned state is the
repository after the call; it is unchanged when an error is thrown. -/
def CreateUserUseCase.execute (s : RepoState) (email name : String) (now : Nat) :
    Except CreateUserError User × RepoState :=
  match createUserInputSchemaParse email name with
  | none => (Except.error CreateUserError.validationError, s)
  | some validatedInput =>
    match InMemoryUserRepository.findByEmail s validatedInput.email with
    | some _ => (Except.error CreateUserError.genericError, s)
    | none =>
      let created :=
        InMemoryUserRepository.create s
          ⟨jsToLower validatedInput.email, validatedInput.name⟩ now
      (Except.ok created.1, created.2)

/-! ## `ListUsersUseCase` (`list-users.use-case.ts`) -/

/-- The error `ListUsersUseCase.execute` can throw (a `ValidationError`). -/
inductive ListUsersError where
  | validationError
deriving Repr, DecidableEq

/-- The `{ users, total }` result of `ListUsersUseCase.execute`. -/
structure ListUsersResult where
  users : List User
  total : Nat
deriving Repr, DecidableEq

/-- Method `ListUsersUseCase.execute`: default the limit to 10 and the offset to 0,
reject limits outside `[1, 100]` with a `ValidationError` before touching the
repository, and otherwise return the repository page together with
`total = users.length`. -/
def ListUsersUseCase.execute (s : RepoState) (limitOpt offsetOpt : Option Nat) :
    Except ListUsersError ListUsersResult :=
  let limit := limitOpt.getD 10
  let offset := offsetOpt.getD 0
  if limit < 1 ∨ 100 < limit then
    Except.error ListUsersError.validationError
  else
    let users := InMemoryUserRepository.list s limit offset
    Except.ok ⟨users, users.length⟩

/-! ## `BaseController.execute` (`base.controller.ts`) -/

/-- A JavaScript value reaching the controller's `catch` block: either an
`Error` instance carrying `name` and `message`, or any other thrown value. -/
inductive ThrownValue where
  | errorObject (errorName errorMessage : String)
  | nonErrorValue
deriving Repr, DecidableEq

/-- The tagged `ControllerResponse<T>` union. -/
inductive ControllerResponse (α : Type) where
  | success (data : α)
  | failure (error message : String)
deriving Repr, DecidableEq

/-- Method `BaseController.execute`: the wrapped computation either resolves with a
value or throws; the result is the corresponding tagged response, with the
fallbacks `"UNKNOWN_ERROR"` / `"An unknown error occurred"` for thrown
values that are not `Error` instances. -/
def BaseController.execute {α : Type} (fn : Except ThrownValue α) :
    ControllerResponse α :=
  match fn with
  | Except.ok data => ControllerResponse.success data
  | Except.error e =>
    let errorMessage :=
      match e with
      | ThrownValue.errorObject _ m => m
      | ThrownValue.nonErrorValue => "An unknown error occurred"
    let errorName :=
      match e with
      | ThrownValue.errorObject n _ => n
      | ThrownValue.nonErrorValue => "UNKNOWN_ERROR"
    ControllerResponse.failure errorName errorMessage

/-! ## Operation sequences and reachable states -/

/-- One raw repository operation (the mutating methods of
`InMemoryUserRepository`). -/
inductive Op where
  | createOp (input : CreateUserInput) (now : Nat)
  | updateOp (id : String) (input : UpdateUserInput) (now : Nat)
  | deleteOp (id : String)

/-- Apply a raw repository operation to the state. -/
def applyOp (s : RepoState) : Op → RepoState
  | Op.createOp input now => (InMemoryUserRepository.create s input now).2
  | Op.updateOp id input now => (InMemoryUserRepository.update s id input now).2
  | Op.deleteOp id => (InMemoryUserRepository.deleteUser s id).2

/-- Run a sequence of raw repository operations. -/
def runOps (s : RepoState) (ops : List Op) : RepoState := ops.foldl applyOp s

/-- The ids handed out by the `create` calls of an operation sequence, in
order. -/
def assignedIds (s : RepoState) : List Op → List Int
  | [] => []
  | op :: rest =>
    match op with
    | Op.createOp input now =>
        (InMemoryUserRepository.create s input now).1.id ::
          assignedIds (applyOp s (Op.createOp input now)) rest
    | _ => assignedIds (applyOp s op) rest

/-- One application-level mutation: user creation always goes through
`CreateUserUseCase.execute` (the layer that enforces email uniqueness);
deletion is the repository's `delete`. -/
inductive UCOp where
  | createUser (email userName : String) (now : Nat)
  | deleteUser (id : String)

/-- Apply an application-level operation to the repository state. -/
def applyUCOp (s : RepoState) : UCOp → RepoState
  | UCOp.createUser email userName now =>
      (CreateUserUseCase.execute s email userName now).2
  | UCOp.deleteUser id => (InMemoryUserRepository.deleteUser s id).2

/-- Run a sequence of application-level operations. -/
def runUCOps (s : RepoState) (ops : List UCOp) : RepoState :=
  ops.foldl applyUCOp s

/-! ## Repository invariants -/

/-- The id discipline of the repository: the counter never falls below 1,
keys are distinct, and every stored entry is keyed by its user's id, which is
at least 1 and below the counter.  Preserved by every raw operation. -/
def IdInv (s : RepoState) : Prop :=
  1 ≤ s.nextId ∧
  (s.users.map Prod.fst).Nodup ∧
  ∀ p ∈ s.users, p.2.id = p.1 ∧ 1 ≤ p.1 ∧ p.1 < s.nextId

/-- Full consistency of the repository state: the id discipline, distinct
index keys, every stored user indexed under its email, and every index entry
pointing at a stored user with that email.  Preserved by use-case creation
and by deletion; implies that stored emails are pairwise distinct. -/
def Consistent (s : RepoState) : Prop :=
  1 ≤ s.nextId ∧
  (s.users.map Prod.fst).Nodup ∧
  (s.emailIndex.map Prod.fst).Nodup ∧
  (∀ p ∈ s.users,
    p.2.id = p.1 ∧ 1 ≤ p.1 ∧ p.1 < s.nextId ∧
      mapGet s.emailIndex p.2.email = some p.1) ∧
  (∀ q ∈ s.emailIndex, (mapGet s.users q.2).map User.email = some q.1)

/-- A concrete repository state used to instantiate the theorems below: the
state of a fresh repository after `CreateUserUseCase.execute` with email
`"a@b.co"` and name `"Alice"` at clock 0. -/
def sampleState : RepoState :=
  ⟨[(1, ⟨1, "a@b.co", "Alice", 0, 0⟩)], [("a@b.co", 1)], 2⟩

instance (s : RepoState) : Decidable (Consistent s) := by
  unfold Consistent
  infer_instance

/-! ## Lemmas about the map model -/

theorem mapGet_eq_none_iff {α β : Type} [DecidableEq α] (m : List (α × β))
    (k : α) : mapGet m k = none ↔ ∀ p ∈ m, p.1 ≠ k := by
  induction m with
  | nil => simp [mapGet]
  | cons hd tl ih =>
    by_cases h : hd.1 = k
    · simp only [mapGet, h, if_pos rfl]
      constructor
      · intro hcontra; exact absurd hcontra (by simp)
      · intro hall; exact absurd h (hall hd (by simp))
    · simp only [mapGet, if_neg h, ih, List.mem_cons]
      constructor
      · rintro hall p (rfl | hp)
        · exact h
        · exact hall p hp
      · intro hall p hp; exact hall p (Or.inr hp)

theorem mem_of_mapGet_eq_some {α β : Type} [DecidableEq α] {m : List (α × β)}
    {k : α} {v : β} (h : mapGet m k = some v) : (k, v) ∈ m := by
  induction m with
  | nil => simp [mapGet] at h
  | cons hd tl ih =>
    by_cases hk : hd.1 = k
    · simp only [mapGet, if_pos hk] at h
      cases h
      have heq : (k, hd.2) = hd := by
        calc (k, hd.2) = (hd.1, hd.2) := by rw [hk]
          _ = hd := rfl
      exact List.mem_cons.mpr (Or.inl heq)
    · simp only [mapGet, if_neg hk] at h
      exact List.mem_cons_of_mem _ (ih h)

theorem mapGet_eq_some_of_mem {α β : Type} [DecidableEq α] {m : List (α × β)}
    {k : α} {v : β} (hnd : (m.map Prod.fst).Nodup) (h : (k, v) ∈ m) :
    mapGet m k = some v := by
  induction m with
  | nil => simp at h
  | cons hd tl ih =>
    simp only [List.map_cons, List.nodup_cons] at hnd
    rcases List.mem_cons.mp h with rfl | hmem
    · simp [mapGet]
    · have hne : hd.1 ≠ k := by
        intro hcontra
        exact hnd.1 (hcontra ▸ (List.mem_map.mpr ⟨(k, v), hmem, rfl⟩))
      simp only [mapGet, if_neg hne]
      exact ih hnd.2 hmem

theorem mapGet_mapSet_self {α β : Type} [DecidableEq α] (m : List (α × β))
    (k : α) (v : β) : mapGet (mapSet m k v) k = some v := by
  induction m with
  | nil => simp [mapGet, mapSet]
  | cons hd tl ih =>
    by_cases h : hd.1 = k
    · simp [mapSet, mapGet, h]
    · simp [mapSet, mapGet, h, ih]

theorem mapGet_mapSet_ne {α β : Type} [DecidableEq α] (m : List (α × β))
    {k k2 : α} (v : β) (h : k2 ≠ k) :
    mapGet (mapSet m k v) k2 = mapGet m k2 := by
  induction m with
  | nil =>
    simp only [mapSet, mapGet]
    rw [if_neg (by intro hc; exact h (Eq.symm hc))]
  | cons hd tl ih =>
    by_cases hk : hd.1 = k
    · simp only [mapSet, if_pos hk, mapGet]
      rw [if_neg (by intro hc; exact h (Eq.symm hc)),
        if_neg (by intro hc; rw [hk] at hc; exact h (Eq.symm hc))]
    · simp only [mapSet, if_neg hk, mapGet]
      by_cases hk2 : hd.1 = k2
      · rw [if_pos hk2, if_pos hk2]
      · rw [if_neg hk2, if_neg hk2, ih]

theorem mem_mapSet {α β : Type} [DecidableEq α] {m : List (α × β)} {k : α}
    {v : β} {p : α × β} (h : p ∈ mapSet m k v) : p = (k, v) ∨ p ∈ m := by
  induction m with
  | nil => simpa [mapSet] using h
  | cons hd tl ih =>
    by_cases hk : hd.1 = k
    · simp only [mapSet, if_pos hk, List.mem_cons] at h
      rcases h with rfl | hmem
      · exact Or.inl rfl
      · exact Or.inr (List.mem_cons_of_mem _ hmem)
    · simp only [mapSet, if_neg hk, List.mem_cons] at h
      rcases h with rfl | hmem
      · exact Or.inr (List.mem_cons_self _ _)
      · rcases ih hmem with h1 | h2
        · exact Or.inl h1
        · exact Or.inr (List.mem_cons_of_mem _ h2)

theorem keys_mapSet_of_mem {α β : Type} [DecidableEq α] {m : List (α × β)}
    {k : α} (v : β) (h : k ∈ m.map Prod.fst) :
    (mapSet m k v).map Prod.fst = m.map Prod.fst := by
  induction m with
  | nil => simp at h
  | cons hd tl ih =>
    by_cases hk : hd.1 = k
    · simp [mapSet, hk]
    · have hmem : k ∈ tl.map Prod.fst := by
        rcases List.mem_map.mp h with ⟨q, hq, hq1⟩
        rcases List.mem_cons.mp hq with rfl | hqtl
        · exact absurd hq1 hk
        · exact List.mem_map.mpr ⟨q, hqtl, hq1⟩
      simp [mapSet, hk, ih hmem]

theorem mapSet_of_not_mem {α β : Type} [DecidableEq α] {m : List (α × β)}
    {k : α} (v : β) (h : k ∉ m.map Prod.fst) :
    mapSet m k v = m ++ [(k, v)] := by
  induction m with
  | nil => simp [mapSet]
  | cons hd tl ih =>
    simp only [List.map_cons, List.mem_cons] at h
    push_neg at h
    have hne : ¬ hd.1 = k := by intro hc; exact h.1 (Eq.symm hc)
    simp [mapSet, hne, ih h.2]

theorem nodup_keys_mapSet {α β : Type} [DecidableEq α] {m : List (α × β)}
    (k : α) (v : β) (hnd : (m.map Prod.fst).Nodup) :
    ((mapSet m k v).map Prod.fst).Nodup := by
  by_cases h : k ∈ m.map Prod.fst
  · rw [keys_mapSet_of_mem v h]; exact hnd
  · rw [mapSet_of_not_mem v h]
    simp only [List.map_append, List.map_cons, List.map_nil]
    exact List.Nodup.append hnd (List.nodup_singleton k)
      (by simpa [List.disjoint_singleton] using h)

theorem mem_mapDelete {α β : Type} [DecidableEq α] {m : List (α × β)} {k : α}
    {p : α × β} : p ∈ mapDelete m k ↔ p ∈ m ∧ p.1 ≠ k := by
  simp [mapDelete, List.mem_filter]

theorem mapGet_mapDelete_ne {α β : Type} [DecidableEq α] (m : List (α × β))
    {k k2 : α} (h : k2 ≠ k) : mapGet (mapDelete m k) k2 = mapGet m k2 := by
  induction m with
  | nil => simp [mapDelete, mapGet]
  | cons hd tl ih =>
    by_cases hk : hd.1 = k
    · have hfd : (hd.1 != k) = false := by simp [hk]
      have hstep : mapDelete (hd :: tl) k = mapDelete tl k := by
        simp [mapDelete, List.filter_cons, hfd]
      rw [hstep, ih]
      simp only [mapGet]
      rw [if_neg (by intro hc; exact h ((Eq.symm hc).trans hk))]
    · have hfd : (hd.1 != k) = true := by simp [hk]
      have hstep : mapDelete (hd :: tl) k = hd :: mapDelete tl k := by
        simp [mapDelete, List.filter_cons, hfd]
      rw [hstep]
      simp only [mapGet]
      rw [ih]

theorem nodup_keys_mapDelete {α β : Type} [DecidableEq α] {m : List (α × β)}
    (k : α) (hnd : (m.map Prod.fst).Nodup) :
    ((mapDelete m k).map Prod.fst).Nodup :=
  ((List.filter_sublist m).map Prod.fst).nodup hnd

theorem eq_of_mem_of_nodup_keys {α β : Type} [DecidableEq α]
    {m : List (α × β)} {p q : α × β} (hnd : (m.map Prod.fst).Nodup)
    (hp : p ∈ m) (hq : q ∈ m) (hkey : p.1 = q.1) : p = q := by
  have h1 : mapGet m p.1 = some p.2 := mapGet_eq_some_of_mem hnd hp
  have h2 : mapGet m q.1 = some q.2 := mapGet_eq_some_of_mem hnd hq
  rw [hkey] at h1
  rw [h1] at h2
  injection h2 with h3
  exact Prod.ext_iff.mpr ⟨hkey, h3⟩

/-! ## Lowercasing is idempotent -/

theorem char_toNat_ofNat_of_valid {n : Nat} (h : n < 55296) :
    (Char.ofNat n).toNat = n := by
  have hv : n.isValidChar := Or.inl h
  simp [Char.ofNat, hv, Char.ofNatAux, Char.toNat, UInt32.toNat,
    BitVec.toNat_ofNatLt]

theorem char_toLower_idem (c : Char) : c.toLower.toLower = c.toLower := by
  unfold Char.toLower
  by_cases h : c.toNat ≥ 65 ∧ c.toNat ≤ 90
  · rw [if_pos h]
    have h2 : (Char.ofNat (c.toNat + 32)).toNat = c.toNat + 32 :=
      char_toNat_ofNat_of_valid (by omega)
    rw [if_neg (by rw [h2]; omega)]
  · rw [if_neg h, if_neg h]

theorem jsToLower_idem (s : String) : jsToLower (jsToLower s) = jsToLower s := by
  show String.mk ((s.data.map Char.toLower).map Char.toLower) =
    String.mk (s.data.map Char.toLower)
  rw [List.map_map]
  exact congrArg String.mk (List.map_congr_left (fun a _ => char_toLower_idem a))

/-! ## Facts about consistent repository states -/

/-- In a consistent state, two stored entries with the same email coincide:
stored emails are pairwise distinct. -/
theorem Consistent.email_inj {s : RepoState} (hc : Consistent s)
    {p q : Int × User} (hp : p ∈ s.users) (hq : q ∈ s.users)
    (he : p.2.email = q.2.email) : p = q := by
  obtain ⟨_, hndU, _, hA, _⟩ := hc
  have h1 := (hA p hp).2.2.2
  have h2 := (hA q hq).2.2.2
  rw [he] at h1
  rw [h1] at h2
  injection h2 with hk
  exact eq_of_mem_of_nodup_keys hndU hp hq hk

/-- In a consistent state, a stored user with the lowercased email makes
`findByEmail` find it. -/
theorem findByEmail_of_stored {s : RepoState} (hc : Consistent s)
    {p : Int × User} (hp : p ∈ s.users) {email : String}
    (he : p.2.email = jsToLower email) :
    InMemoryUserRepository.findByEmail s email = some p.2 := by
  obtain ⟨_, hndU, _, hA, _⟩ := hc
  have hidx := (hA p hp).2.2.2
  rw [he] at hidx
  have h1 : 1 ≤ p.1 := (hA p hp).2.1
  have hget : mapGet s.users p.1 = some p.2 :=
    mapGet_eq_some_of_mem hndU (by simpa using hp)
  simp only [InMemoryUserRepository.findByEmail, hidx]
  rw [if_neg (by omega), hget]

/-- In a consistent state, `findByEmail` returning `null` means the
lowercased email has no entry in the index at all. -/
theorem index_none_of_findByEmail_none {s : RepoState} (hc : Consistent s)
    {email : String}
    (h : InMemoryUserRepository.findByEmail s email = none) :
    mapGet s.emailIndex (jsToLower email) = none := by
  obtain ⟨_, _, _, hA, hB⟩ := hc
  cases hidx : mapGet s.emailIndex (jsToLower email) with
  | none => rfl
  | some i =>
    exfalso
    have hB2 := hB _ (mem_of_mapGet_eq_some hidx)
    cases hu : mapGet s.users i with
    | none => rw [hu] at hB2; cases hB2
    | some u =>
      have h1 : 1 ≤ i := (hA (i, u) (mem_of_mapGet_eq_some hu)).2.1
      simp only [InMemoryUserRepository.findByEmail, hidx] at h
      rw [if_neg (by omega), hu] at h
      cases h

/-- In a consistent state, `findByEmail` returns `null` for an email no
stored user has. -/
theorem findByEmail_none_of_not_stored {s : RepoState} (hc : Consistent s)
    {email : String} (hall : ∀ p ∈ s.users, p.2.email ≠ jsToLower email) :
    InMemoryUserRepository.findByEmail s email = none := by
  obtain ⟨_, _, _, hA, hB⟩ := hc
  cases hidx : mapGet s.emailIndex (jsToLower email) with
  | none => simp [InMemoryUserRepository.findByEmail, hidx]
  | some i =>
    exfalso
    have hB2 := hB _ (mem_of_mapGet_eq_some hidx)
    cases hu : mapGet s.users i with
    | none => rw [hu] at hB2; cases hB2
    | some u =>
      rw [hu] at hB2
      injection hB2 with hB3
      exact hall (i, u) (mem_of_mapGet_eq_some hu) hB3

/-! ## Preservation of the invariants -/

theorem consistent_init : Consistent RepoState.init := by
  simp [Consistent, RepoState.init]

theorem create_nextId (s : RepoState) (input : CreateUserInput) (now : Nat) :
    (InMemoryUserRepository.create s input now).2.nextId = s.nextId + 1 := rfl

theorem update_nextId (s : RepoState) (id : String) (input : UpdateUserInput)
    (now : Nat) :
    (InMemoryUserRepository.update s id input now).2.nextId = s.nextId := by
  cases hp : parseIntJS id with
  | none => simp [InMemoryUserRepository.update, hp]
  | some n =>
    cases hu : mapGet s.users n with
    | none => simp [InMemoryUserRepository.update, hp, hu]
    | some u => simp [InMemoryUserRepository.update, hp, hu]

theorem deleteUser_nextId (s : RepoState) (id : String) :
    (InMemoryUserRepository.deleteUser s id).2.nextId = s.nextId := by
  cases hp : parseIntJS id with
  | none => simp [InMemoryUserRepository.deleteUser, hp]
  | some n =>
    cases hu : mapGet s.users n with
    | none => simp [InMemoryUserRepository.deleteUser, hp, hu]
    | some u => simp [InMemoryUserRepository.deleteUser, hp, hu]

/-- Calling `create` preserves consistency whenever the (lowercased) email of the new
user is not yet in the index — which is exactly what
`CreateUserUseCase.execute` has checked when it calls `create`. -/
theorem consistent_create_of_fresh {s : RepoState} (hc : Consistent s)
    (input : CreateUserInput) (now : Nat)
    (hfresh : mapGet s.emailIndex (jsToLower input.email) = none) :
    Consistent (InMemoryUserRepository.create s input now).2 := by
  have hc2 := hc
  obtain ⟨hnext, hndU, hndE, hA, hB⟩ := hc2
  have hstate : (InMemoryUserRepository.create s input now).2 =
      ⟨mapSet s.users s.nextId
          ⟨s.nextId, jsToLower input.email, input.name, now, now⟩,
        mapSet s.emailIndex (jsToLower input.email) s.nextId,
        s.nextId + 1⟩ := rfl
  rw [hstate]
  refine ⟨show (1 : Int) ≤ s.nextId + 1 by omega, nodup_keys_mapSet _ _ hndU,
    nodup_keys_mapSet _ _ hndE, ?_, ?_⟩
  · intro p hp2
    rcases mem_mapSet hp2 with rfl | hold
    · exact ⟨rfl, hnext, show s.nextId < s.nextId + 1 by omega,
        mapGet_mapSet_self _ _ _⟩
    · have holdA := hA p hold
      refine ⟨holdA.1, holdA.2.1,
        show p.1 < s.nextId + 1 by have := holdA.2.2.1; omega, ?_⟩
      have hne : p.2.email ≠ jsToLower input.email := by
        intro hcontra
        have hidx := holdA.2.2.2
        rw [hcontra, hfresh] at hidx
        cases hidx
      rw [mapGet_mapSet_ne _ _ hne]
      exact holdA.2.2.2
  · intro q hq2
    rcases mem_mapSet hq2 with rfl | holdq
    · rw [show ((jsToLower input.email, s.nextId) : String × Int).2 = s.nextId
          from rfl, mapGet_mapSet_self]
      rfl
    · have hBold := hB q holdq
      cases hw : mapGet s.users q.2 with
      | none => rw [hw] at hBold; cases hBold
      | some w =>
        have hlt : q.2 < s.nextId :=
          (hA _ (mem_of_mapGet_eq_some hw)).2.2.1
        rw [mapGet_mapSet_ne _ _ (by omega : q.2 ≠ s.nextId), hw]
        rw [hw] at hBold
        exact hBold

/-- Calling `CreateUserUseCase.execute` preserves consistency. -/
theorem consistent_execute {s : RepoState} (hc : Consistent s)
    (email userName : String) (now : Nat) :
    Consistent (CreateUserUseCase.execute s email userName now).2 := by
  cases hv : createUserInputSchemaParse email userName with
  | none => simpa [CreateUserUseCase.execute, hv] using hc
  | some v =>
    cases hf : InMemoryUserRepository.findByEmail s v.email with
    | some w => simpa [CreateUserUseCase.execute, hv, hf] using hc
    | none =>
      have hfresh : mapGet s.emailIndex (jsToLower (jsToLower v.email)) =
          none := by
        rw [jsToLower_idem]
        exact index_none_of_findByEmail_none hc hf
      have hmain :=
        consistent_create_of_fresh hc ⟨jsToLower v.email, v.name⟩ now hfresh
      simpa [CreateUserUseCase.execute, hv, hf] using hmain

/-- Calling `delete` preserves consistency. -/
theorem consistent_deleteUser {s : RepoState} (hc : Consistent s)
    (id : String) :
    Consistent (InMemoryUserRepository.deleteUser s id).2 := by
  cases hp : parseIntJS id with
  | none => simpa [InMemoryUserRepository.deleteUser, hp] using hc
  | some n =>
    cases hu : mapGet s.users n with
    | none => simpa [InMemoryUserRepository.deleteUser, hp, hu] using hc
    | some u =>
      have hc2 := hc
      obtain ⟨hnext, hndU, hndE, hA, hB⟩ := hc2
      have humem : (n, u) ∈ s.users := mem_of_mapGet_eq_some hu
      simp only [InMemoryUserRepository.deleteUser, hp, hu]
      refine ⟨hnext, nodup_keys_mapDelete _ hndU, nodup_keys_mapDelete _ hndE,
        ?_, ?_⟩
      · intro p hp2
        have hmem := mem_mapDelete.mp hp2
        have hold := hA p hmem.1
        refine ⟨hold.1, hold.2.1, hold.2.2.1, ?_⟩
        have hne : p.2.email ≠ u.email := by
          intro hcontra
          have hpe : p = (n, u) :=
            Consistent.email_inj hc hmem.1 humem hcontra
          rw [hpe] at hmem
          exact hmem.2 rfl
        rw [mapGet_mapDelete_ne _ hne]
        exact hold.2.2.2
      · intro q hq2
        have hmem := mem_mapDelete.mp hq2
        have hBold := hB q hmem.1
        cases hw : mapGet s.users q.2 with
        | none => rw [hw] at hBold; cases hBold
        | some w =>
          rw [hw] at hBold
          injection hBold with hBe
          have hne : q.2 ≠ n := by
            intro hcontra
            rw [hcontra, hu] at hw
            injection hw with hwu
            rw [← hwu] at hBe
            exact hmem.2 (by rw [← hBe])
          rw [mapGet_mapDelete_ne _ hne, hw]
          simp [hBe]

/-- Every state reachable through use-case creation and deletion is
consistent. -/
theorem consistent_runUCOps (ops : List UCOp) :
    Consistent (runUCOps RepoState.init ops) := by
  suffices h : ∀ (l : List UCOp) (s : RepoState), Consistent s →
      Consistent (runUCOps s l) from h ops RepoState.init consistent_init
  intro l
  induction l with
  | nil => intro s hs; exact hs
  | cons op rest ih =>
    intro s hs
    have hstep : Consistent (applyUCOp s op) := by
      cases op with
      | createUser e nm now => exact consistent_execute hs e nm now
      | deleteUser id => exact consistent_deleteUser hs id
    exact ih _ hstep

theorem idInv_init : IdInv RepoState.init := by
  simp [IdInv, RepoState.init]

theorem idInv_create {s : RepoState} (hc : IdInv s) (input : CreateUserInput)
    (now : Nat) : IdInv (InMemoryUserRepository.create s input now).2 := by
  obtain ⟨hnext, hnd, hA⟩ := hc
  have hstate : (InMemoryUserRepository.create s input now).2 =
      ⟨mapSet s.users s.nextId
          ⟨s.nextId, jsToLower input.email, input.name, now, now⟩,
        mapSet s.emailIndex (jsToLower input.email) s.nextId,
        s.nextId + 1⟩ := rfl
  rw [hstate]
  refine ⟨show (1 : Int) ≤ s.nextId + 1 by omega, nodup_keys_mapSet _ _ hnd,
    ?_⟩
  intro p hp2
  rcases mem_mapSet hp2 with rfl | hold
  · exact ⟨rfl, hnext, show s.nextId < s.nextId + 1 by omega⟩
  · have h := hA p hold
    exact ⟨h.1, h.2.1, show p.1 < s.nextId + 1 by have := h.2.2; omega⟩

theorem idInv_update {s : RepoState} (hc : IdInv s) (id : String)
    (input : UpdateUserInput) (now : Nat) :
    IdInv (InMemoryUserRepository.update s id input now).2 := by
  cases hp : parseIntJS id with
  | none => simpa [InMemoryUserRepository.update, hp] using hc
  | some n =>
    cases hu : mapGet s.users n with
    | none => simpa [InMemoryUserRepository.update, hp, hu] using hc
    | some u =>
      obtain ⟨hnext, hnd, hA⟩ := hc
      have hAu := hA (n, u) (mem_of_mapGet_eq_some hu)
      simp only [InMemoryUserRepository.update, hp, hu]
      refine ⟨hnext, nodup_keys_mapSet _ _ hnd, ?_⟩
      intro p hp2
      rcases mem_mapSet hp2 with rfl | hold
      · exact ⟨hAu.1, hAu.2.1, hAu.2.2⟩
      · exact hA p hold

theorem idInv_deleteUser {s : RepoState} (hc : IdInv s) (id : String) :
    IdInv (InMemoryUserRepository.deleteUser s id).2 := by
  cases hp : parseIntJS id with
  | none => simpa [InMemoryUserRepository.deleteUser, hp] using hc
  | some n =>
    cases hu : mapGet s.users n with
    | none => simpa [InMemoryUserRepository.deleteUser, hp, hu] using hc
    | some u =>
      obtain ⟨hnext, hnd, hA⟩ := hc
      simp only [InMemoryUserRepository.deleteUser, hp, hu]
      refine ⟨hnext, nodup_keys_mapDelete _ hnd, ?_⟩
      intro p hp2
      exact hA p (mem_mapDelete.mp hp2).1

/-- Every state reachable through raw repository operations satisfies the id
discipline. -/
theorem idInv_runOps (ops : List Op) : IdInv (runOps RepoState.init ops) := by
  suffices h : ∀ (l : List Op) (s : RepoState), IdInv s → IdInv (runOps s l)
    from h ops RepoState.init idInv_init
  intro l
  induction l with
  | nil => intro s hs; exact hs
  | cons op rest ih =>
    intro s hs
    have hstep : IdInv (applyOp s op) := by
      cases op with
      | createOp input now => exact idInv_create hs input now
      | updateOp id input now => exact idInv_update hs id input now
      | deleteOp id => exact idInv_deleteUser hs id
    exact ih _ hstep

/-- The ids a `create` sequence hands out, starting from any state, form a
strictly increasing sequence bounded below by that state's counter. -/
theorem assignedIds_chain (ops : List Op) : ∀ s : RepoState,
    List.Chain' (fun a b => a < b) (assignedIds s ops) ∧
      ∀ i ∈ assignedIds s ops, s.nextId ≤ i := by
  induction ops with
  | nil => intro s; exact ⟨List.chain'_nil, by simp [assignedIds]⟩
  | cons op rest ih =>
    intro s
    cases op with
    | createOp input now =>
      have hrec := ih (applyOp s (Op.createOp input now))
      have hnid : (applyOp s (Op.createOp input now)).nextId = s.nextId + 1 :=
        rfl
      rw [hnid] at hrec
      have hasg : assignedIds s (Op.createOp input now :: rest) =
          s.nextId :: assignedIds (applyOp s (Op.createOp input now)) rest :=
        rfl
      rw [hasg]
      constructor
      · rw [List.chain'_cons']
        refine ⟨?_, hrec.1⟩
        intro y hy
        have hmem := List.mem_of_mem_head? hy
        have := hrec.2 y hmem
        omega
      · intro i hi
        rcases List.mem_cons.mp hi with rfl | hmem
        · omega
        · have := hrec.2 i hmem
          omega
    | updateOp id input now =>
      have hrec := ih (applyOp s (Op.updateOp id input now))
      have hnid : (applyOp s (Op.updateOp id input now)).nextId = s.nextId :=
        update_nextId s id input now
      rw [hnid] at hrec
      exact hrec
    | deleteOp id =>
      have hrec := ih (applyOp s (Op.deleteOp id))
      have hnid : (applyOp s (Op.deleteOp id)).nextId = s.nextId :=
        deleteUser_nextId s id
      rw [hnid] at hrec
      exact hrec

/-- Inversion of a successful schema parse: the parsed value is the raw email
with the trimmed name, and every schema check held. -/
theorem schemaParse_inv {email userName : String} {v : CreateUserInput}
    (h : createUserInputSchemaParse email userName = some v) :
    v = ⟨email, jsTrim userName⟩ ∧
      (isZodEmail email = true ∧ 1 ≤ email.length ∧ email.length ≤ 255 ∧
        1 ≤ userName.length ∧ userName.length ≤ 100) := by
  unfold createUserInputSchemaParse at h
  split at h
  · rename_i hcond
    injection h with h1
    exact ⟨h1.symm, hcond⟩
  · cases h

/-! ## C1 — email uniqueness at creation time -/

/-- C1 (counterexample): the repository does not enforce email uniqueness at
creation time.  Two raw `create` calls with the same email — a sequence of
repository operations whose last step is a create — leave the map holding two
users with the same email `"a@b.co"`. -/
theorem C1_repo_create_allows_duplicate_email :
    (runOps RepoState.init
        [Op.createOp ⟨"a@b.co", "Alice"⟩ 0,
         Op.createOp ⟨"a@b.co", "Bob"⟩ 1]).users.map (fun p => p.2.email) =
      ["a@b.co", "a@b.co"] := by decide

/-- C1 (amended): email uniqueness at creation time is enforced by
`CreateUserUseCase`, not by the repository: in every state reachable from a
fresh repository through use-case creation and repository deletion, any two
stored entries with the same email coincide. -/
theorem C1_uc_reachable_emails_distinct (ops : List UCOp) :
    ∀ p ∈ (runUCOps RepoState.init ops).users,
      ∀ q ∈ (runUCOps RepoState.init ops).users, p.2.email = q.2.email →
        p = q := by
  intro p hp q hq he
  exact Consistent.email_inj (consistent_runUCOps ops) hp hq he

/-- Instantiation of `C1_uc_reachable_emails_distinct` at a concrete reachable
state. -/
theorem C1_uc_reachable_emails_distinct_witness :
    (((1 : Int), (⟨1, "a@b.co", "Alice", 0, 0⟩ : User)) ∈
        (runUCOps RepoState.init [UCOp.createUser "a@b.co" "Alice" 0]).users) ∧
      ((1 : Int), (⟨1, "a@b.co", "Alice", 0, 0⟩ : User)) =
        ((1 : Int), (⟨1, "a@b.co", "Alice", 0, 0⟩ : User)) :=
  ⟨by decide,
    C1_uc_reachable_emails_distinct [UCOp.createUser "a@b.co" "Alice" 0]
      ((1 : Int), (⟨1, "a@b.co", "Alice", 0, 0⟩ : User)) (by decide)
      ((1 : Int), (⟨1, "a@b.co", "Alice", 0, 0⟩ : User)) (by decide) rfl⟩

/-! ## C2 — validation errors of `CreateUserUseCase` -/

/-- C2 (counterexample): a name consisting only of whitespace is NOT rejected:
the schema checks `min(1)`/`max(100)` run on the untrimmed name before the
`trim()` transform, so `" "` (untrimmed length 1, trimmed length 0) passes
validation and a user with the empty name is created. -/
theorem C2_whitespace_name_not_rejected :
    (CreateUserUseCase.execute RepoState.init "a@b.co" " " 0).1 =
        Except.ok
          { id := 1, email := "a@b.co", name := "", createdAt := 0,
            updatedAt := 0 } ∧
      jsTrim " " = "" :=
  ⟨by rfl, by decide⟩

/-- C2 (amended): `CreateUserUseCase.execute` throws a `ValidationError`
exactly when the input fails the schema, i.e. when the email fails the zod
email format or its length is not between 1 and 255, or when the UNTRIMMED
name length is not between 1 and 100 (the `trim` transform runs after the
length checks). -/
theorem C2_validation_error_iff (s : RepoState) (email userName : String)
    (now : Nat) :
    (CreateUserUseCase.execute s email userName now).1 =
        Except.error CreateUserError.validationError ↔
      ¬ (isZodEmail email = true ∧ 1 ≤ email.length ∧ email.length ≤ 255 ∧
          1 ≤ userName.length ∧ userName.length ≤ 100) := by
  by_cases hcond : isZodEmail email = true ∧ 1 ≤ email.length ∧
      email.length ≤ 255 ∧ 1 ≤ userName.length ∧ userName.length ≤ 100
  · have hv : createUserInputSchemaParse email userName =
        some ⟨email, jsTrim userName⟩ := by
      unfold createUserInputSchemaParse
      rw [if_pos hcond]
    cases hf : InMemoryUserRepository.findByEmail s email with
    | some w => simp [CreateUserUseCase.execute, hv, hf, hcond]
    | none => simp [CreateUserUseCase.execute, hv, hf, hcond]
  · have hv : createUserInputSchemaParse email userName = none := by
      unfold createUserInputSchemaParse
      rw [if_neg hcond]
    simp [CreateUserUseCase.execute, hv, hcond]

/-- Instantiation of `C2_validation_error_iff`: an input without an `@` fails
the schema, so the use case throws a `ValidationError`. -/
theorem C2_validation_error_iff_witness :
    (CreateUserUseCase.execute RepoState.init "invalid-email" "Bob" 0).1 =
      Except.error CreateUserError.validationError :=
  (C2_validation_error_iff RepoState.init "invalid-email" "Bob" 0).mpr
    (by decide)

/-! ## C3 — duplicate email: generic error, repository untouched -/

/-- C3: in a consistent repository state already storing a user whose email
equals the lowercased input email, `CreateUserUseCase.execute` with otherwise
valid input throws the generic `Error` (not a `ValidationError`) and leaves
the repository state unchanged. -/
theorem C3_duplicate_email_generic_error (s : RepoState)
    (email userName : String) (now : Nat) (v : CreateUserInput)
    (hcons : Consistent s)
    (hvalid : createUserInputSchemaParse email userName = some v)
    (hstored : ∃ p ∈ s.users, p.2.email = jsToLower email) :
    CreateUserUseCase.execute s email userName now =
      (Except.error CreateUserError.genericError, s) := by
  obtain ⟨p, hp, hpe⟩ := hstored
  obtain ⟨hveq, _⟩ := schemaParse_inv hvalid
  have hf : InMemoryUserRepository.findByEmail s v.email = some p.2 := by
    rw [hveq]
    exact findByEmail_of_stored hcons hp hpe
  simp [CreateUserUseCase.execute, hvalid, hf]

/-- Instantiation of `C3_duplicate_email_generic_error`: creating `"A@B.co"`
in a state that already stores `"a@b.co"` fails with the generic error and
changes nothing. -/
theorem C3_duplicate_email_generic_error_witness :
    Consistent sampleState ∧
      createUserInputSchemaParse "A@B.co" "Bob" = some ⟨"A@B.co", "Bob"⟩ ∧
      (∃ p ∈ sampleState.users, p.2.email = jsToLower "A@B.co") ∧
      CreateUserUseCase.execute sampleState "A@B.co" "Bob" 1 =
        (Except.error CreateUserError.genericError, sampleState) :=
  ⟨by decide, by decide, by decide,
    C3_duplicate_email_generic_error sampleState "A@B.co" "Bob" 1
      ⟨"A@B.co", "Bob"⟩ (by decide) (by decide) (by decide)⟩

/-! ## C4 — successful creation -/

/-- C4: on valid input (schema parse succeeds, `findByEmail` misses) the use
case returns a user whose email is the lowercased input email, whose name is
the trimmed input name, whose id is the repository counter and whose two
timestamps are the repository clock; afterwards the counter is bumped and the
user is retrievable both by any id string parsing to its id and by its
email. -/
theorem C4_create_success (s : RepoState) (email userName : String)
    (now : Nat) (v : CreateUserInput)
    (hnext : 1 ≤ s.nextId)
    (hparse : createUserInputSchemaParse email userName = some v)
    (hfree : InMemoryUserRepository.findByEmail s email = none) :
    (CreateUserUseCase.execute s email userName now).1 =
        Except.ok ⟨s.nextId, jsToLower email, jsTrim userName, now, now⟩ ∧
      (CreateUserUseCase.execute s email userName now).2.nextId =
        s.nextId + 1 ∧
      (∀ idStr : String, parseIntJS idStr = some s.nextId →
        InMemoryUserRepository.findById
            (CreateUserUseCase.execute s email userName now).2 idStr =
          some ⟨s.nextId, jsToLower email, jsTrim userName, now, now⟩) ∧
      InMemoryUserRepository.findByEmail
          (CreateUserUseCase.execute s email userName now).2 email =
        some ⟨s.nextId, jsToLower email, jsTrim userName, now, now⟩ := by
  obtain ⟨hveq, _⟩ := schemaParse_inv hparse
  subst hveq
  have hexec : CreateUserUseCase.execute s email userName now =
      (Except.ok
          (⟨s.nextId, jsToLower (jsToLower email), jsTrim userName, now,
            now⟩ : User),
        ⟨mapSet s.users s.nextId
            ⟨s.nextId, jsToLower (jsToLower email), jsTrim userName, now,
              now⟩,
          mapSet s.emailIndex (jsToLower (jsToLower email)) s.nextId,
          s.nextId + 1⟩) := by
    simp [CreateUserUseCase.execute, hparse, hfree,
      InMemoryUserRepository.create]
  rw [hexec, jsToLower_idem]
  refine ⟨rfl, rfl, ?_, ?_⟩
  · intro idStr hid
    simp only [InMemoryUserRepository.findById, hid]
    exact mapGet_mapSet_self _ _ _
  · simp only [InMemoryUserRepository.findByEmail, mapGet_mapSet_self]
    rw [if_neg (by omega)]

/-- Instantiation of `C4_create_success` on a fresh repository, with a name
that needs trimming and an id string `"1"`. -/
theorem C4_create_success_witness :
    (1 : Int) ≤ RepoState.init.nextId ∧
      createUserInputSchemaParse "a@b.co" " Bob " =
        some ⟨"a@b.co", "Bob"⟩ ∧
      InMemoryUserRepository.findByEmail RepoState.init "a@b.co" = none ∧
      parseIntJS "1" = some RepoState.init.nextId ∧
      InMemoryUserRepository.findById
          (CreateUserUseCase.execute RepoState.init "a@b.co" " Bob " 0).2
          "1" =
        some ⟨RepoState.init.nextId, jsToLower "a@b.co", jsTrim " Bob ", 0,
          0⟩ :=
  ⟨by decide, by decide, by decide, by decide,
    (C4_create_success RepoState.init "a@b.co" " Bob " 0 ⟨"a@b.co", "Bob"⟩
        (by decide) (by decide) (by decide)).2.2.1 "1" (by decide)⟩

/-! ## C5 — nullable results for missing entities -/

/-- C5: in a consistent state, an id string that does not identify any stored
user (in particular a non-numeric one) makes `findById` and `update` return
`null` without touching the state and `delete` return `false` without
touching the state, and an email no stored user has makes `findByEmail`
return `null`.  (All four operations are total functions of the model: none
of them can throw.) -/
theorem C5_missing_entities_nullable (s : RepoState) (id email : String)
    (input : UpdateUserInput) (now : Nat)
    (hcons : Consistent s)
    (hid : ∀ p ∈ s.users, parseIntJS id ≠ some p.1)
    (hemail : ∀ p ∈ s.users, p.2.email ≠ jsToLower email) :
    InMemoryUserRepository.findById s id = none ∧
      InMemoryUserRepository.update s id input now = (none, s) ∧
      InMemoryUserRepository.deleteUser s id = (false, s) ∧
      InMemoryUserRepository.findByEmail s email = none := by
  have hget : ∀ n : Int, parseIntJS id = some n → mapGet s.users n = none := by
    intro n hn
    cases hu : mapGet s.users n with
    | none => rfl
    | some u => exact absurd hn (hid (n, u) (mem_of_mapGet_eq_some hu))
  refine ⟨?_, ?_, ?_, findByEmail_none_of_not_stored hcons hemail⟩
  · cases hp : parseIntJS id with
    | none => simp [InMemoryUserRepository.findById, hp]
    | some n => simp [InMemoryUserRepository.findById, hp, hget n hp]
  · cases hp : parseIntJS id with
    | none => simp [InMemoryUserRepository.update, hp]
    | some n => simp [InMemoryUserRepository.update, hp, hget n hp]
  · cases hp : parseIntJS id with
    | none => simp [InMemoryUserRepository.deleteUser, hp]
    | some n => simp [InMemoryUserRepository.deleteUser, hp, hget n hp]

/-- Instantiation of `C5_missing_entities_nullable` with the non-numeric id
string `"abc"` and an absent email. -/
theorem C5_missing_entities_nullable_witness :
    Consistent sampleState ∧
      (∀ p ∈ sampleState.users, parseIntJS "abc" ≠ some p.1) ∧
      (∀ p ∈ sampleState.users, p.2.email ≠ jsToLower "x@y.co") ∧
      (InMemoryUserRepository.findById sampleState "abc" = none ∧
        InMemoryUserRepository.update sampleState "abc" ⟨none, some "Zed"⟩ 5 =
          (none, sampleState) ∧
        InMemoryUserRepository.deleteUser sampleState "abc" =
          (false, sampleState) ∧
        InMemoryUserRepository.findByEmail sampleState "x@y.co" = none) :=
  ⟨by decide, by decide, by decide,
    C5_missing_entities_nullable sampleState "abc" "x@y.co" ⟨none, some "Zed"⟩
      5 (by decide) (by decide) (by decide)⟩

/-! ## C6 — `list` is a contiguous slice -/

/-- C6: for every state, limit and offset, `list` returns exactly the
contiguous slice of the stored users (in insertion order) from `offset` up to
`offset + limit`; consequently it never holds more than `limit` users, and
the zero-argument default call is `limit = 10`, `offset = 0`. -/
theorem C6_list_is_slice (s : RepoState) (limit offset : Nat) :
    InMemoryUserRepository.list s limit offset =
        ((InMemoryUserRepository.values s).drop offset).take limit ∧
      (InMemoryUserRepository.list s limit offset).length ≤ limit ∧
      InMemoryUserRepository.listDefault s =
        ((InMemoryUserRepository.values s).drop 0).take 10 := by
  have hmain : ∀ (l : List User) (lim off : Nat),
      InMemoryUserRepository.jsSlice l off (off + lim) =
        (l.drop off).take lim := by
    intro l lim off
    unfold InMemoryUserRepository.jsSlice
    exact (List.take_drop off lim l).symm
  refine ⟨hmain _ _ _, ?_, hmain _ _ _⟩
  rw [show InMemoryUserRepository.list s limit offset =
      ((InMemoryUserRepository.values s).drop offset).take limit
    from hmain _ _ _]
  rw [List.length_take]
  exact Nat.min_le_left _ _

/-! ## C7 — `update` merges partial fields -/

/-- C7: updating a stored user merges the provided fields over the stored
ones: a provided email is lowercased, a provided name replaces the old one,
absent fields — id and `createdAt` in particular — are unchanged, and
`updatedAt` is refreshed to the current clock; the stored map gets exactly
the merged user at the same key. -/
theorem C7_update_merges_fields (s : RepoState) (idStr : String) (n : Int)
    (input : UpdateUserInput) (user : User) (now : Nat)
    (hparse : parseIntJS idStr = some n)
    (hfound : mapGet s.users n = some user) :
    ((InMemoryUserRepository.update s idStr input now).1.map User.id =
        some user.id ∧
      (InMemoryUserRepository.update s idStr input now).1.map
          User.createdAt = some user.createdAt ∧
      (InMemoryUserRepository.update s idStr input now).1.map
          User.updatedAt = some now ∧
      (InMemoryUserRepository.update s idStr input now).1.map User.email =
        some ((input.email.map jsToLower).getD user.email) ∧
      (InMemoryUserRepository.update s idStr input now).1.map User.name =
        some (input.name.getD user.name)) ∧
      (InMemoryUserRepository.update s idStr input now).2.users =
        mapSet s.users n
          ⟨user.id, (input.email.map jsToLower).getD user.email,
            input.name.getD user.name, user.createdAt, now⟩ ∧
      (InMemoryUserRepository.update s idStr input now).2.nextId =
        s.nextId := by
  simp [InMemoryUserRepository.update, hparse, hfound]

/-- Instantiation of `C7_update_merges_fields`: updating only the email of
the stored user lowercases it, leaves the name and `createdAt` alone and
refreshes `updatedAt`. -/
theorem C7_update_merges_fields_witness :
    parseIntJS "1" = some 1 ∧
      mapGet sampleState.users 1 = some ⟨1, "a@b.co", "Alice", 0, 0⟩ ∧
      (InMemoryUserRepository.update sampleState "1"
            ⟨some "NEW@Mail.com", none⟩ 7).1.map User.email =
        some (((some "NEW@Mail.com").map jsToLower).getD "a@b.co") :=
  ⟨by decide, by decide,
    (C7_update_merges_fields sampleState "1" 1 ⟨some "NEW@Mail.com", none⟩
        ⟨1, "a@b.co", "Alice", 0, 0⟩ 7 (by decide) (by decide)).1.2.2.2.1⟩

/-! ## C8 — the controller's tagged response -/

/-- C8: `BaseController.execute` never lets an exception propagate: a
resolved computation yields `{success: true, data}`, a thrown `Error` yields
`{success: false, error, message}` built from the error's `name` and
`message`, and a thrown non-`Error` value yields the `"UNKNOWN_ERROR"`
fallbacks.  (The model is a total function on all wrapped outcomes.) -/
theorem C8_controller_tagged_response {α : Type} (d : α) (nm msg : String) :
    BaseController.execute (Except.ok d) = ControllerResponse.success d ∧
      BaseController.execute
          (Except.error (ThrownValue.errorObject nm msg) :
            Except ThrownValue α) =
        ControllerResponse.failure nm msg ∧
      BaseController.execute
          (Except.error ThrownValue.nonErrorValue : Except ThrownValue α) =
        ControllerResponse.failure "UNKNOWN_ERROR"
          "An unknown error occurred" :=
  ⟨rfl, rfl, rfl⟩

/-! ## C9 — `ListUsersUseCase` limit validation and total -/

/-- C9: `ListUsersUseCase.execute` throws a `ValidationError` exactly when
the effective limit (defaulting to 10) lies outside `[1, 100]` — the
condition depends only on the limit, never on the repository — and otherwise
returns the repository page with `total` equal to that page's length (not
the number of stored users). -/
theorem C9_list_users_limit_validation (s : RepoState)
    (limitOpt offsetOpt : Option Nat) :
    (ListUsersUseCase.execute s limitOpt offsetOpt =
        Except.error ListUsersError.validationError ↔
      (limitOpt.getD 10 < 1 ∨ 100 < limitOpt.getD 10)) ∧
      (¬ (limitOpt.getD 10 < 1 ∨ 100 < limitOpt.getD 10) →
        ListUsersUseCase.execute s limitOpt offsetOpt =
          Except.ok
            ⟨InMemoryUserRepository.list s (limitOpt.getD 10)
                (offsetOpt.getD 0),
              (InMemoryUserRepository.list s (limitOpt.getD 10)
                  (offsetOpt.getD 0)).length⟩) := by
  have hexec : ListUsersUseCase.execute s limitOpt offsetOpt =
      if limitOpt.getD 10 < 1 ∨ 100 < limitOpt.getD 10 then
        Except.error ListUsersError.validationError
      else
        Except.ok
          ⟨InMemoryUserRepository.list s (limitOpt.getD 10)
              (offsetOpt.getD 0),
            (InMemoryUserRepository.list s (limitOpt.getD 10)
                (offsetOpt.getD 0)).length⟩ := rfl
  by_cases hcond : limitOpt.getD 10 < 1 ∨ 100 < limitOpt.getD 10
  · rw [hexec, if_pos hcond]
    exact ⟨⟨fun _ => hcond, fun _ => rfl⟩, fun h => absurd hcond h⟩
  · rw [hexec, if_neg hcond]
    exact ⟨⟨fun h => Except.noConfusion h, fun h => absurd h hcond⟩,
      fun _ => rfl⟩

/-- Instantiation of `C9_list_users_limit_validation` with no limit given:
the default 10 is in range, and the page of the sample state comes back with
`total` equal to its length. -/
theorem C9_list_users_limit_validation_witness :
    ¬ ((none : Option Nat).getD 10 < 1 ∨ 100 < (none : Option Nat).getD 10) ∧
      ListUsersUseCase.execute sampleState none none =
        Except.ok
          ⟨InMemoryUserRepository.list sampleState 10 0,
            (InMemoryUserRepository.list sampleState 10 0).length⟩ :=
  ⟨by decide,
    (C9_list_users_limit_validation sampleState none none).2 (by decide)⟩

/-! ## C10 — ids are strictly increasing and never reused -/

/-- C10: across any sequence of repository operations from a fresh
repository, the ids assigned by `create` form a strictly increasing
sequence (so ids are never reused, even after deletions), every assigned id
is at least 1, and in every reachable state distinct stored entries carry
distinct ids, all at least 1. -/
theorem C10_ids_strictly_increasing (ops : List Op) :
    List.Chain' (fun a b => a < b) (assignedIds RepoState.init ops) ∧
      (∀ i ∈ assignedIds RepoState.init ops, 1 ≤ i) ∧
      (∀ p ∈ (runOps RepoState.init ops).users,
        ∀ q ∈ (runOps RepoState.init ops).users, p ≠ q →
          p.2.id ≠ q.2.id) ∧
      (∀ p ∈ (runOps RepoState.init ops).users, 1 ≤ p.2.id) := by
  have hchain := assignedIds_chain ops RepoState.init
  obtain ⟨hnext, hnd, hA⟩ := idInv_runOps ops
  refine ⟨hchain.1, ?_, ?_, ?_⟩
  · intro i hi
    exact hchain.2 i hi
  · intro p hp q hq hne hcontra
    have hpA := hA p hp
    have hqA := hA q hq
    have hk : p.1 = q.1 := by rw [← hpA.1, ← hqA.1, hcontra]
    exact hne (eq_of_mem_of_nodup_keys hnd hp hq hk)
  · intro p hp
    have hpA := hA p hp
    rw [hpA.1]
    exact hpA.2.1

/-- Instantiation of `C10_ids_strictly_increasing`: after create, delete,
create, the second created user got the fresh id 2 — id 1 is not reused —
and both assigned ids are at least 1. -/
theorem C10_ids_strictly_increasing_witness :
    ((1 : Int) ∈ assignedIds RepoState.init
        [Op.createOp ⟨"a@b.co", "Alice"⟩ 0, Op.deleteOp "1",
          Op.createOp ⟨"a@b.co", "Bob"⟩ 1]) ∧
      (1 : Int) ≤ 1 :=
  ⟨by decide,
    (C10_ids_strictly_increasing
        [Op.createOp ⟨"a@b.co", "Alice"⟩ 0, Op.deleteOp "1",
          Op.createOp ⟨"a@b.co", "Bob"⟩ 1]).2.1 1 (by decide)⟩
